import Mathlib

/-!
Verification development for the SQL column-level lineage analyzer
(`lineage_analyzer`): a shallow embedding of the statement splitter and
clause scanner (`extractor.py`), the column-mapping resolver
(`analyzer.py`) and the metadata registry (`metadata.py`), together with
theorems settling the behavioural claims about them.

Conventions of the embedding:
* Python `dict`s (Python >= 3.7, insertion ordered) are modelled as
  association lists with unique keys; assignment to an existing key
  updates the entry in place, assignment to a fresh key appends at the
  end, exactly as in CPython.
* Python strings are modelled by `String`/`List Char`; only the ASCII
  fragment matters for the analyzed code (the regexes in the source are
  ASCII character classes).
* Each `re` pattern of the source is embedded as a dedicated scanning
  function implementing the leftmost-match semantics of that concrete
  pattern; the source pattern is quoted next to each definition.
  Functions that skip over maximal runs use an explicit fuel argument
  (always called with `length + 1`, enough to never run out) so that all
  definitions compute by `decide`.
-/

namespace Lineage

/-! ## Character and string helpers (Python semantics, ASCII fragment) -/

/-- Python whitespace for `str.strip` / regex `\s` (ASCII fragment):
space, tab, newline, carriage return, vertical tab, form feed. -/
def pyIsSpace (c : Char) : Bool :=
  c = ' ' || c = '\t' || c = '\n' || c = '\r' || c = '\x0b' || c = '\x0c'

/-- The regex character class `[a-zA-Z0-9_]`. -/
def isWordChar (c : Char) : Bool :=
  c.isAlpha || c.isDigit || c = '_'

/-- Python `str.strip()` on a character list: drop whitespace from both ends. -/
def stripL (l : List Char) : List Char :=
  ((l.dropWhile pyIsSpace).reverse.dropWhile pyIsSpace).reverse

/-- Python `str.strip()`. -/
def pyStrip (s : String) : String :=
  ⟨stripL s.data⟩

/-- Python `str.upper()` (ASCII fragment). -/
def pyUpper (s : String) : String :=
  ⟨s.data.map Char.toUpper⟩

/-- Python `sep in s` substring containment for a character-list needle. -/
def containsList (pat : List Char) : List Char → Bool
  | [] => pat.isPrefixOf []
  | c :: rest => pat.isPrefixOf (c :: rest) || containsList pat rest

/-- Python `needle in hay` on strings. -/
def pyContains (hay needle : String) : Bool :=
  containsList needle.data hay.data

/-- Python `s.split(sep)` for a single-character separator: plain split,
keeping empty pieces. -/
def splitOnCharL (sep : Char) : List Char → List (List Char)
  | [] => [[]]
  | c :: rest =>
    let r := splitOnCharL sep rest
    if c = sep then [] :: r
    else
      match r with
      | [] => [[c]]
      | p :: ps => (c :: p) :: ps

/-- Python `s.split(sep)` returning strings. -/
def pySplitChar (sep : Char) (s : String) : List String :=
  (splitOnCharL sep s.data).map (fun l => (⟨l⟩ : String))

/-- `'.' in name` for the dotted-name checks of `metadata.py`. -/
def hasDot (s : String) : Bool :=
  s.data.contains '.'

/-! ## Python dictionaries as insertion-ordered association lists

CPython dicts (3.7+) preserve insertion order: assigning to an existing
key updates the entry in place, assigning to a fresh key appends at the
end.  `dictSet` mirrors assignment, `dictGet?` lookup, `dictMem` the
`in` operator, `dictKeys` `list(d.keys())`. -/

def dictGet? {α : Type} : List (String × α) → String → Option α
  | [], _ => none
  | (k', v) :: rest, k => if k' = k then some v else dictGet? rest k

def dictSet {α : Type} : List (String × α) → String → α → List (String × α)
  | [], k, v => [(k, v)]
  | (k', v') :: rest, k, v =>
    if k' = k then (k', v) :: rest else (k', v') :: dictSet rest k v

def dictMem {α : Type} (l : List (String × α)) (k : String) : Bool :=
  (dictGet? l k).isSome

def dictKeys {α : Type} (l : List (String × α)) : List String :=
  l.map Prod.fst

/-- `d[k] = f(d[k])`-style in-place modification; unreachable on absent
keys in the embedded code (Python would raise `KeyError`). -/
def dictModify {α : Type} : List (String × α) → String → (α → α) → List (String × α)
  | [], _, _ => []
  | (k', v) :: rest, k, f =>
    if k' = k then (k', f v) :: rest else (k', v) :: dictModify rest k f

/-! ## MetadataStore (`metadata.py`)

`self.metadata` is the nested dict `{db: {table: {column: properties}}}`.
Property bags are string→string dicts (the data model of the store).
Optional `database_name` arguments are `Option String`; Python truthiness
(`not database_name`) is false for `None` and for the empty string. -/

abbrev Bag := List (String × String)
abbrev ColsDict := List (String × Bag)
abbrev TablesDict := List (String × ColsDict)
abbrev Registry := List (String × TablesDict)

instance instDecEqBag : DecidableEq Bag := inferInstance

instance instDecEqColsDict : DecidableEq ColsDict := inferInstance

instance instDecEqTablesDict : DecidableEq TablesDict := inferInstance

instance instDecEqRegistry : DecidableEq Registry := inferInstance

/-- The reserved per-table properties slot installed by `add_table`. -/
def tpKey : String := "_table_properties"

/-- Python truthiness test `not database_name` for an optional string. -/
def optFalsy : Option String → Bool
  | none => true
  | some s => s = ""

/-- `if not database_name: database_name = 'default'`. -/
def resolveDb : Option String → String
  | none => "default"
  | some d => if d = "" then "default" else d

/-- Lines 22-26 / 47-51 etc. of `metadata.py`: when the table name is
dotted and the database argument is falsy, split it on `.`; reassign only
when the split has exactly two parts. -/
def splitIfDotted (t : String) (db : Option String) : Option String × String :=
  if hasDot t && optFalsy db then
    match pySplitChar '.' t with
    | [d1, t1] => (some d1, t1)
    | _ => (db, t)
  else (db, t)

/-- The dotted-name split followed by the `'default'` fallback, as every
public operation performs it. -/
def resolveTableDb (t : String) (db : Option String) : String × String :=
  let q := splitIfDotted t db
  (resolveDb q.1, q.2)

/-- `self.metadata[database_name]` (present whenever accessed by the code). -/
def tablesOf (s : Registry) (db : String) : TablesDict :=
  (dictGet? s db).getD []

/-- `self.metadata[db][t] = cols` (the table is present when executed). -/
def setTableEntry (s : Registry) (db t : String) (cols : ColsDict) : Registry :=
  dictModify s db (fun tbls => dictSet tbls t cols)

/-- `self.metadata[db][t][c] = bag` (db and table present when executed). -/
def setColEntry (s : Registry) (db t c : String) (bag : Bag) : Registry :=
  dictModify s db (fun tbls => dictModify tbls t (fun cols => dictSet cols c bag))

/-- In-place update of one property bag,
`self.metadata[db][t][c][key] = value` style. -/
def modifyBagEntry (s : Registry) (db t c : String) (f : Bag → Bag) : Registry :=
  dictModify s db (fun tbls => dictModify tbls t (fun cols => dictModify cols c f))

/-- `MetadataStore.add_database`. -/
def add_database (database_name : String) (s : Registry) : Registry :=
  if dictMem s database_name then s else dictSet s database_name []

/-- `MetadataStore.add_table` without its trailing description step
(i.e. with `description=None`, the form every internal call uses):
resolve the (database, table) pair, create the database, and if the
table is absent install it with the reserved `'_table_properties'` slot. -/
def add_table_base (table_name : String) (database_name : Option String)
    (s : Registry) : Registry :=
  let p := resolveTableDb table_name database_name
  let s1 := add_database p.1 s
  if dictMem (tablesOf s1 p.1) p.2 then s1
  else setTableEntry s1 p.1 p.2 [(tpKey, [])]

/-- `MetadataStore.set_table_description`: resolve names, ensure the
table (via `add_table` with no description), ensure the reserved slot,
then set `['_table_properties']['description']`. -/
def set_table_description (table_name description : String)
    (database_name : Option String) (s : Registry) : Registry :=
  let p := resolveTableDb table_name database_name
  let s1 := add_table_base p.2 (some p.1) s
  let s2 :=
    if dictMem ((dictGet? (tablesOf s1 p.1) p.2).getD []) tpKey then s1
    else setColEntry s1 p.1 p.2 tpKey []
  modifyBagEntry s2 p.1 p.2 tpKey (fun bag => dictSet bag "description" description)

/-- `MetadataStore.add_table` including the `if description:` step. -/
def add_table (table_name : String) (database_name : Option String)
    (description : Option String) (s : Registry) : Registry :=
  let p := resolveTableDb table_name database_name
  let s1 := add_table_base table_name database_name s
  match description with
  | some d => if d = "" then s1 else set_table_description p.2 d (some p.1) s1
  | none => s1

/-- `MetadataStore.add_column`: split a dotted table name, ensure the
table, default the database, default the properties to `{}`, merge an
optional description into them, and assign
`self.metadata[db][t][column_name] = properties` (the bag replaces any
existing one). -/
def add_column (column_name table_name : String) (database_name : Option String)
    (properties : Option Bag) (description : Option String) (s : Registry) : Registry :=
  let q := splitIfDotted table_name database_name
  let s1 := add_table_base q.2 q.1 s
  let db := resolveDb q.1
  let props0 := properties.getD []
  let props :=
    match description with
    | some d => if d = "" then props0 else dictSet props0 "description" d
    | none => props0
  setColEntry s1 db q.2 column_name props

/-- `MetadataStore.column_exists`. -/
def column_exists (table_name column_name : String)
    (database_name : Option String) (s : Registry) : Bool :=
  let p := resolveTableDb table_name database_name
  match dictGet? s p.1 with
  | some tbls =>
    match dictGet? tbls p.2 with
    | some cols => dictMem cols column_name
    | none => false
  | none => false

/-- `MetadataStore.get_columns`: `list(self.metadata[db][t].keys())` when
the database and table exist, `[]` otherwise. -/
def get_columns (table_name : String) (database_name : Option String)
    (s : Registry) : List String :=
  let p := resolveTableDb table_name database_name
  match dictGet? s p.1 with
  | some tbls =>
    match dictGet? tbls p.2 with
    | some cols => dictKeys cols
    | none => []
  | none => []

/-- `MetadataStore.set_column_description`: ensure the column exists
(creating it via `add_column` if not), then set its `description`
property in place. -/
def set_column_description (column_name table_name description : String)
    (database_name : Option String) (s : Registry) : Registry :=
  let p := resolveTableDb table_name database_name
  let s1 :=
    if column_exists p.2 column_name (some p.1) s then s
    else add_column column_name p.2 (some p.1) none none s
  modifyBagEntry s1 p.1 p.2 column_name (fun bag => dictSet bag "description" description)

/-- Accessor for stating theorems: the property bag stored at
`(db, table, column)`, if any. -/
def bagOf (s : Registry) (db t c : String) : Option Bag :=
  match dictGet? s db with
  | some tbls =>
    match dictGet? tbls t with
    | some cols => dictGet? cols c
    | none => none
  | none => none

/-- Inner loop of the JSON import (`_import_metadata_from_json_file` /
`process_pasted_metadata`): `add_column(column_name, table_name, db_name,
properties)` for each column of one table, in order. -/
def import_cols (db t : String) : ColsDict → Registry → Registry
  | [], s => s
  | (c, props) :: rest, s =>
    import_cols db t rest (add_column c t (some db) (some props) none s)

/-- Middle loop of the JSON import: `add_table(table_name, db_name)` then
the column loop, for each table of one database. -/
def import_tables (db : String) : TablesDict → Registry → Registry
  | [], s => s
  | (t, cols) :: rest, s =>
    import_tables db rest (import_cols db t cols (add_table t (some db) none s))

/-- `_import_metadata_from_json_file` / the JSON branch of
`process_pasted_metadata`, applied to already-parsed data:
`add_database` then the table loop, for each database in order. -/
def import_json : Registry → Registry → Registry
  | [], s => s
  | (db, tbls) :: rest, s =>
    import_json rest (import_tables db tbls (add_database db s))

/-- `_export_metadata_to_json` followed by `json.load`: serializing the
nested string registry and parsing it back reproduces it verbatim, so
the exported document is the registry itself. -/
def export_metadata_to_json (s : Registry) : Registry := s

/-- States of a `MetadataStore` reachable through the public mutating
operations.  The CSV/SQL import paths and `_process_metadata_text` only
issue `add_table`/`add_column` calls, so they are covered by the
corresponding constructors; the JSON import path is its own constructor
(arbitrary parsed data). -/
inductive Reachable : Registry → Prop where
  | init : Reachable []
  | addDb (name : String) {s : Registry} :
      Reachable s → Reachable (add_database name s)
  | addTbl (t : String) (db : Option String) (desc : Option String) {s : Registry} :
      Reachable s → Reachable (add_table t db desc s)
  | addCol (c t : String) (db : Option String) (props : Option Bag)
      (desc : Option String) {s : Registry} :
      Reachable s → Reachable (add_column c t db props desc s)
  | setTblDesc (t d : String) (db : Option String) {s : Registry} :
      Reachable s → Reachable (set_table_description t d db s)
  | setColDesc (c t d : String) (db : Option String) {s : Registry} :
      Reachable s → Reachable (set_column_description c t d db s)
  | impJson (data : Registry) {s : Registry} :
      Reachable s → Reachable (import_json data s)

/-- Well-formedness of one table entry: unique column keys and the
reserved properties slot sits at the front (where `add_table` installed
it). -/
def TableOk (cols : ColsDict) : Prop :=
  (dictKeys cols).Nodup ∧ ∃ b rest, cols = (tpKey, b) :: rest

/-- Well-formedness of one database entry: unique table keys, the
empty-named database holds no tables (no operation can place one there),
and every table entry is well-formed. -/
def DbOk (db : String) (tbls : TablesDict) : Prop :=
  (dictKeys tbls).Nodup ∧ (db = "" → tbls = []) ∧
    ∀ t cols, dictGet? tbls t = some cols → TableOk cols

/-- The store invariant maintained by every public operation. -/
def Inv (s : Registry) : Prop :=
  (dictKeys s).Nodup ∧ ∀ db tbls, dictGet? s db = some tbls → DbOk db tbls

/-! ## Regex scanners

Each function below embeds one concrete `re` pattern of the source with
Python leftmost-match semantics.  `matchCI pat l` consumes a literal
case-insensitively (`pat` is given uppercase), `wsPlus` is a greedy
`\s+`, `token1 p` a greedy `[class]+`, and `searchL m` tries the matcher
at every start position left to right (`re.search`). -/

def matchCI : List Char → List Char → Option (List Char)
  | [], l => some l
  | _ :: _, [] => none
  | p :: ps, c :: cs => if c.toUpper = p then matchCI ps cs else none

/-- Greedy `\s+`: at least one whitespace character, maximal run. -/
def wsPlus : List Char → Option (List Char)
  | [] => none
  | c :: cs => if pyIsSpace c then some (cs.dropWhile pyIsSpace) else none

/-- Greedy `[class]+`: the maximal non-empty run of class characters and
the remainder. -/
def token1 (p : Char → Bool) (l : List Char) : Option (List Char × List Char) :=
  let t := l.takeWhile p
  if t.isEmpty then none else some (t, l.dropWhile p)

/-- `re.search`: try the matcher at each start position, leftmost first. -/
def searchL {α : Type} (m : List Char → Option α) : List Char → Option α
  | [] => m []
  | c :: rest =>
    match m (c :: rest) with
    | some r => some r
    | none => searchL m rest

/-- `re.finditer`: all non-overlapping matches, leftmost first; the
matcher returns the capture and the remainder after the match end.  Fuel
is the input length plus one (each step consumes at least one
character). -/
def findAllL {α : Type} (m : List Char → Option (α × List Char)) :
    Nat → List Char → List α
  | 0, _ => []
  | _ + 1, [] => []
  | fuel + 1, c :: rest =>
    match m (c :: rest) with
    | some (a, l') => a :: findAllL m fuel l'
    | none => findAllL m fuel rest

/-- The class `[^\s(]` of the target-table / procedure-name tokens. -/
def isTokenChar (c : Char) : Bool := !(pyIsSpace c) && c ≠ '('

/-- The class `[^)]`. -/
def notClose (c : Char) : Bool := c ≠ ')'

/-- The class `[^\s,;()]` of the `FROM`/`JOIN` table tokens. -/
def isSrcTokChar (c : Char) : Bool :=
  !(pyIsSpace c) && c ≠ ',' && c ≠ ';' && c ≠ '(' && c ≠ ')'

/-- The class `[^\s,]` of the alias token. -/
def isAliasTokChar (c : Char) : Bool := !(pyIsSpace c) && c ≠ ','

/-- Optional `(?:OR\s+REPLACE\s+)?` with its continuation (the regex
prefers the alternative with the group present). -/
def orReplaceOpt {α : Type} (k : List Char → Option α) (l : List Char) : Option α :=
  match (((matchCI "OR".data l).bind wsPlus).bind
      (matchCI "REPLACE".data)).bind (fun l' => (wsPlus l').bind k) with
  | some r => some r
  | none => k l

/-- Optional `(?:TEMP|TEMPORARY\s+)?` with its continuation: the
alternatives are tried in pattern order, then the empty option.  (Note
the source pattern has no `\s+` after the bare `TEMP` alternative.) -/
def tempOpt {α : Type} (k : List Char → Option α) (l : List Char) : Option α :=
  match (matchCI "TEMP".data l).bind k with
  | some r => some r
  | none =>
    match ((matchCI "TEMPORARY".data l).bind wsPlus).bind k with
    | some r => some r
    | none => k l

/-- Matcher for `INSERT\s+INTO\s+([^\s(]+)` (group 1). -/
def matchInsertTable (l : List Char) : Option (List Char) :=
  (matchCI "INSERT".data l).bind fun l1 =>
  (wsPlus l1).bind fun l2 =>
  (matchCI "INTO".data l2).bind fun l3 =>
  (wsPlus l3).bind fun l4 =>
  (token1 isTokenChar l4).map Prod.fst

/-- Matcher for `INSERT\s+INTO\s+[^\s(]+\s*\(([^)]+)\)` (group 1). -/
def matchInsertCols (l : List Char) : Option (List Char) :=
  (matchCI "INSERT".data l).bind fun l1 =>
  (wsPlus l1).bind fun l2 =>
  (matchCI "INTO".data l2).bind fun l3 =>
  (wsPlus l3).bind fun l4 =>
  (token1 isTokenChar l4).bind fun pr =>
  match pr.2.dropWhile pyIsSpace with
  | '(' :: l5 =>
    (token1 notClose l5).bind fun ar =>
    match ar.2 with
    | ')' :: _ => some ar.1
    | _ => none
  | _ => none

/-- Tail `TABLE\s+([^\s(]+)` of the CREATE TABLE target pattern. -/
def tableTail (l : List Char) : Option (List Char) :=
  (matchCI "TABLE".data l).bind fun l1 =>
  (wsPlus l1).bind fun l2 =>
  (token1 isTokenChar l2).map Prod.fst

/-- Matcher for
`CREATE\s+(?:OR\s+REPLACE\s+)?(?:TEMP|TEMPORARY\s+)?TABLE\s+([^\s(]+)`. -/
def matchCreateTableTarget (l : List Char) : Option (List Char) :=
  (matchCI "CREATE".data l).bind fun l1 =>
  (wsPlus l1).bind fun l2 =>
  orReplaceOpt (tempOpt tableTail) l2

/-- Tail `VIEW\s+([^\s(]+)` of the CREATE VIEW target pattern. -/
def viewTail (l : List Char) : Option (List Char) :=
  (matchCI "VIEW".data l).bind fun l1 =>
  (wsPlus l1).bind fun l2 =>
  (token1 isTokenChar l2).map Prod.fst

/-- Matcher for `CREATE\s+(?:OR\s+REPLACE\s+)?VIEW\s+([^\s(]+)`. -/
def matchCreateViewTarget (l : List Char) : Option (List Char) :=
  (matchCI "CREATE".data l).bind fun l1 =>
  (wsPlus l1).bind fun l2 =>
  orReplaceOpt viewTail l2

/-- Matcher for `FROM\s+([^\s,;()]+)` / `JOIN\s+([^\s,;()]+)`, returning
the capture and the remainder after the match (for `finditer`). -/
def matchKwToken (kw : List Char) (l : List Char) : Option (List Char × List Char) :=
  (matchCI kw l).bind fun l1 =>
  (wsPlus l1).bind fun l2 =>
  token1 isSrcTokChar l2

/-- The lazy group of `SELECT\s+(.+?)\s+FROM`: grow the group one
character at a time (never across a newline, `.` does not match `\n`)
until `\s+FROM` follows; the group must be non-empty.  `acc` holds the
group so far, reversed. -/
def selectGroup : Nat → List Char → List Char → Option (List Char)
  | 0, _, _ => none
  | fuel + 1, acc, l =>
    if !acc.isEmpty && ((wsPlus l).bind (matchCI "FROM".data)).isSome then
      some acc.reverse
    else
      match l with
      | [] => none
      | c :: rest =>
        if c = '\n' then none else selectGroup fuel (c :: acc) rest

/-- Matcher for `SELECT\s+(.+?)\s+FROM` (group 1). -/
def matchSelect (l : List Char) : Option (List Char) :=
  (matchCI "SELECT".data l).bind fun l1 =>
  (wsPlus l1).bind fun l2 =>
  selectGroup (l2.length + 1) [] l2

/-- Matcher for the parameter-list capture of
`CREATE\s+(?:OR\s+REPLACE\s+)?PROCEDURE\s+[^\s(]+\s*\(([^)]+)\)`,
returning the capture and the remainder after the match. -/
def procTail (l : List Char) : Option (List Char × List Char) :=
  (matchCI "PROCEDURE".data l).bind fun l1 =>
  (wsPlus l1).bind fun l2 =>
  (token1 isTokenChar l2).bind fun pr =>
  match pr.2.dropWhile pyIsSpace with
  | '(' :: l3 =>
    (token1 notClose l3).bind fun ar =>
    match ar.2 with
    | ')' :: l4 => some (ar.1, l4)
    | _ => none
  | _ => none

def matchProc (l : List Char) : Option (List Char × List Char) :=
  (matchCI "CREATE".data l).bind fun l1 =>
  (wsPlus l1).bind fun l2 =>
  orReplaceOpt procTail l2

/-- Leftmost match of `([a-zA-Z0-9_]+)\.([a-zA-Z0-9_]+)`: the first
maximal word run immediately followed by a dot and a word character;
group 1 is that run, group 2 the maximal word run after the dot. -/
def findQualifiedL : Nat → List Char → Option (List Char × List Char)
  | 0, _ => none
  | _ + 1, [] => none
  | fuel + 1, c :: rest =>
    if isWordChar c then
      let after := (c :: rest).dropWhile isWordChar
      match after with
      | '.' :: a2 =>
        let run2 := a2.takeWhile isWordChar
        if run2.isEmpty then findQualifiedL fuel after
        else some ((c :: rest).takeWhile isWordChar, run2)
      | _ => findQualifiedL fuel after
    else findQualifiedL fuel rest

def findQualified (s : String) : Option (String × String) :=
  (findQualifiedL (s.data.length + 1) s.data).map fun pr =>
    ((⟨pr.1⟩ : String), (⟨pr.2⟩ : String))

/-- Leftmost match of `([a-zA-Z0-9_]+)\(([^)]+)\)`: a maximal word run
immediately followed by `(`, a non-empty run up to the first `)`, and
that `)`. -/
def findFuncCallL : Nat → List Char → Option (List Char × List Char)
  | 0, _ => none
  | _ + 1, [] => none
  | fuel + 1, c :: rest =>
    if isWordChar c then
      let after := (c :: rest).dropWhile isWordChar
      match after with
      | '(' :: a2 =>
        let args := a2.takeWhile notClose
        if args.isEmpty then findFuncCallL fuel after
        else
          match a2.dropWhile notClose with
          | ')' :: _ => some ((c :: rest).takeWhile isWordChar, args)
          | _ => findFuncCallL fuel after
      | _ => findFuncCallL fuel after
    else findFuncCallL fuel rest

def findFuncCall (s : String) : Option (String × String) :=
  (findFuncCallL (s.data.length + 1) s.data).map fun pr =>
    ((⟨pr.1⟩ : String), (⟨pr.2⟩ : String))

/-- Leftmost match of `([a-zA-Z0-9_]+)\(` (group 1). -/
def findFuncNameL : Nat → List Char → Option (List Char)
  | 0, _ => none
  | _ + 1, [] => none
  | fuel + 1, c :: rest =>
    if isWordChar c then
      let after := (c :: rest).dropWhile isWordChar
      match after with
      | '(' :: _ => some ((c :: rest).takeWhile isWordChar)
      | _ => findFuncNameL fuel after
    else findFuncNameL fuel rest

def findFuncName (s : String) : Option String :=
  (findFuncNameL (s.data.length + 1) s.data).map fun r => (⟨r⟩ : String)

/-- `re.match(r'^[a-zA-Z0-9_]+$', expr)`: non-empty and all word
characters (the embedded code only receives stripped, newline-free
expressions, so the `$`-before-final-newline case does not arise). -/
def isSimpleName (l : List Char) : Bool :=
  !l.isEmpty && l.all isWordChar

/-- Case-insensitive `\bPAT\b` word search (`re.search(r'\bIN\b', p,
re.IGNORECASE)` and friends): some occurrence of the literal with no
word character on either side.  The boolean argument records whether the
previous character was a word character. -/
def wordSearch (pat : List Char) : Bool → List Char → Bool
  | _, [] => false
  | prevWord, c :: rest =>
    (if prevWord then false
     else
       match matchCI pat (c :: rest) with
       | some l' =>
         match l' with
         | [] => true
         | c' :: _ => !(isWordChar c')
       | none => false)
    || wordSearch pat (isWordChar c) rest

/-- The `\s+AS\s+([^\s,]+)$` tail of the alias pattern, matched at the
current position; returns group 2. -/
def aliasTailAt (l : List Char) : Option (List Char) :=
  (wsPlus l).bind fun l1 =>
  (matchCI "AS".data l1).bind fun l2 =>
  (wsPlus l2).bind fun l3 =>
  (token1 isAliasTokChar l3).bind fun pr =>
  if pr.2.isEmpty then some pr.1 else none

/-- `re.search(r'(.*?)\s+AS\s+([^\s,]+)$', expr, re.IGNORECASE)`: lazy
prefix (group 1, never across a newline) up to the first position where
the anchored alias tail matches; returns (group 1, group 2). -/
def aliasSearch : Nat → List Char → List Char → Option (List Char × List Char)
  | 0, _, _ => none
  | fuel + 1, acc, l =>
    match aliasTailAt l with
    | some tok => some (acc.reverse, tok)
    | none =>
      match l with
      | [] => none
      | c :: rest =>
        if c = '\n' then none else aliasSearch fuel (c :: acc) rest

/-! ## Comment stripping and normalization (`utils.normalize_sql`,
`analyzer._normalize_sql`, first step of `extract_sql_statements`) -/

/-- `re.sub(r'--.*?$', ' ', s, flags=re.MULTILINE)`: each `--` and the
rest of its line are replaced by one space (the newline survives, `$` is
zero-width). -/
def removeLineCommentsL : Nat → List Char → List Char
  | 0, l => l
  | _ + 1, [] => []
  | fuel + 1, '-' :: '-' :: rest =>
    ' ' :: removeLineCommentsL fuel (rest.dropWhile (fun c => c ≠ '\n'))
  | fuel + 1, c :: rest => c :: removeLineCommentsL fuel rest

/-- Remainder after the first `*/`, if any. -/
def findBlockClose : Nat → List Char → Option (List Char)
  | 0, _ => none
  | _ + 1, [] => none
  | _ + 1, '*' :: '/' :: rest => some rest
  | fuel + 1, _ :: rest => findBlockClose fuel rest

/-- `re.sub(r'/\*.*?\*/', ' ', s, flags=re.DOTALL)`: each `/*` with a
matching `*/` is replaced (minimally) by one space; an unterminated
`/*` is left in place (the pattern does not match). -/
def removeBlockCommentsL : Nat → List Char → List Char
  | 0, l => l
  | _ + 1, [] => []
  | fuel + 1, '/' :: '*' :: rest =>
    (match findBlockClose (rest.length + 1) rest with
     | some rest2 => ' ' :: removeBlockCommentsL fuel rest2
     | none => '/' :: '*' :: rest)
  | fuel + 1, c :: rest => c :: removeBlockCommentsL fuel rest

/-- `re.sub(r'\s+', ' ', s)`: collapse every whitespace run to one
space. -/
def collapseWsL : Nat → List Char → List Char
  | 0, l => l
  | _ + 1, [] => []
  | fuel + 1, c :: rest =>
    if pyIsSpace c then ' ' :: collapseWsL fuel (rest.dropWhile pyIsSpace)
    else c :: collapseWsL fuel rest

/-- `normalize_sql` / `LineageAnalyzer._normalize_sql`: strip comments,
collapse whitespace, strip the ends. -/
def normalize_sql (s : String) : String :=
  let l1 := removeLineCommentsL (s.data.length + 1) s.data
  let l2 := removeBlockCommentsL (l1.length + 1) l1
  let l3 := collapseWsL (l2.length + 1) l2
  pyStrip ⟨l3⟩

/-! ## Statement splitter (`SQLComponentExtractor.extract_sql_statements`) -/

/-- The quote-tracking split loop of `extract_sql_statements`: `inQ` and
`qc` mirror `in_quote`/`quote_char`, `cur` the current statement, `acc`
the emitted statements.  A quote character toggles the literal state
when it matches the open quote kind (or none is open); a `;` outside a
literal emits the stripped current statement when non-empty; every other
character is appended. -/
def splitScan : List Char → Bool → Option Char → List Char → List String → List String
  | [], _, _, cur, acc =>
    if (stripL cur).isEmpty then acc else acc ++ [(⟨stripL cur⟩ : String)]
  | c :: rest, inQ, qc, cur, acc =>
    if (c = '\'' || c = '"') && (!inQ || qc = some c) then
      splitScan rest (!inQ) (if !inQ then some c else none) (cur ++ [c]) acc
    else if c = ';' && !inQ then
      splitScan rest inQ qc []
        (if (stripL cur).isEmpty then acc else acc ++ [(⟨stripL cur⟩ : String)])
    else
      splitScan rest inQ qc (cur ++ [c]) acc

/-- `SQLComponentExtractor.extract_sql_statements`: strip comments, then
split on `;` outside quoted literals, keeping trimmed non-empty pieces
(a trailing piece without `;` included). -/
def extract_sql_statements (content : String) : List String :=
  let l1 := removeLineCommentsL (content.data.length + 1) content.data
  let l2 := removeBlockCommentsL (l1.length + 1) l1
  splitScan l2 false none [] []

/-! ## Query type and stored-procedure parameters (`extractor.py`) -/

/-- Python `s.startswith(pat)`. -/
def pyStartsWith (s pat : String) : Bool :=
  pat.data.isPrefixOf s.data

/-- `SQLComponentExtractor.extract_query_type`: strip and upper-case the
statement, then literal prefix tests in source order. -/
def extract_query_type (sql_text : String) : String :=
  let s := pyUpper (pyStrip sql_text)
  if pyStartsWith s "SELECT" then "SELECT"
  else if pyStartsWith s "INSERT" then "INSERT"
  else if pyStartsWith s "UPDATE" then "UPDATE"
  else if pyStartsWith s "DELETE" then "DELETE"
  else if pyStartsWith s "CREATE TABLE" then "CREATE TABLE"
  else if pyStartsWith s "CREATE VIEW" then "CREATE VIEW"
  else if pyStartsWith s "CREATE PROCEDURE" || pyStartsWith s "CREATE FUNCTION" then
    "CREATE PROCEDURE"
  else if pyStartsWith s "ALTER" then "ALTER"
  else if pyStartsWith s "DROP" then "DROP"
  else "UNKNOWN"

/-- Parameter classification of `extract_stored_procedure_params`:
`\bIN\b` first, then `\bOUT\b`, then `\bINOUT\b` (both lists), else
input by default.  The accumulator is the pair (input, output). -/
def classifyParam (acc : List String × List String) (p : List Char) :
    List String × List String :=
  if wordSearch "IN".data false p then (acc.1 ++ [(⟨p⟩ : String)], acc.2)
  else if wordSearch "OUT".data false p then (acc.1, acc.2 ++ [(⟨p⟩ : String)])
  else if wordSearch "INOUT".data false p then
    (acc.1 ++ [(⟨p⟩ : String)], acc.2 ++ [(⟨p⟩ : String)])
  else (acc.1 ++ [(⟨p⟩ : String)], acc.2)

/-- `SQLComponentExtractor.extract_stored_procedure_params`: for each
`CREATE PROCEDURE` match, split the captured parameter text on plain
commas (`params_text.split(',')`), strip each piece and classify it. -/
def extract_stored_procedure_params (sql_text : String) :
    List String × List String :=
  let captures := findAllL matchProc (sql_text.data.length + 1) sql_text.data
  captures.foldl
    (fun acc params_text =>
      ((splitOnCharL ',' params_text).map stripL).foldl classifyParam acc)
    ([], [])

/-! ## Column-mapping resolver (`analyzer.py`) -/

/-- The comma split at parenthesis depth zero used for projection lists
(depth tracked as in the source, pieces stripped; a top-level comma
always emits the piece, the final piece only when the raw accumulator is
non-empty). -/
def splitTopLevelAux : List Char → Int → List Char → List String → List String
  | [], _, cur, acc => if cur.isEmpty then acc else acc ++ [(⟨stripL cur⟩ : String)]
  | c :: rest, depth, cur, acc =>
    if c = '(' then splitTopLevelAux rest (depth + 1) (cur ++ [c]) acc
    else if c = ')' then splitTopLevelAux rest (depth - 1) (cur ++ [c]) acc
    else if c = ',' && depth = 0 then
      splitTopLevelAux rest depth [] (acc ++ [(⟨stripL cur⟩ : String)])
    else splitTopLevelAux rest depth (cur ++ [c]) acc

def splitTopLevel (s : String) : List String :=
  splitTopLevelAux s.data 0 [] []

/-- `LineageAnalyzer._extract_column_source`: qualified-reference search
first, then function-call search (with a qualified reference inside the
arguments tagged `(in func)`), then metadata lookup for a bare name,
else the expression itself. -/
def extract_column_source (column_expr : String) (source_tables : List String)
    (store : Registry) : String :=
  match findQualified column_expr with
  | some pr => pr.1 ++ "." ++ pr.2
  | none =>
    match findFuncCall column_expr with
    | some pr =>
      match findQualified pr.2 with
      | some qr => qr.1 ++ "." ++ qr.2 ++ " (in " ++ pr.1 ++ ")"
      | none => "Function: " ++ pr.1 ++ "(" ++ pr.2 ++ ")"
    | none =>
      if isSimpleName column_expr.data && !source_tables.isEmpty then
        match source_tables.find? (fun tbl => column_exists tbl column_expr none store) with
        | some tbl => tbl ++ "." ++ column_expr
        | none => column_expr
      else column_expr

/-- `LineageAnalyzer._derive_column_name` (identical code also in
`MetadataStore._derive_column_name`): qualified reference → its column
part; else a function call `name(` → `name_result`; else the expression
itself when it is at most 30 word characters; else `derived_column`. -/
def derive_column_name (expr : String) : String :=
  match findQualified expr with
  | some pr => pr.2
  | none =>
    match findFuncName expr with
    | some f => f ++ "_result"
    | none =>
      if expr.data.length ≤ 30 && expr.data.all isWordChar then expr
      else "derived_column"

/-- The positional mapping loop of the INSERT branch of
`_extract_column_mappings`: `for i, target in enumerate(targets): if i <
len(sources): mappings[f"{tt}.{target}"] = [resolve(sources[i])]`,
consuming both lists in lockstep. -/
def insertLoop (tt : String) (srcs : List String) (store : Registry) :
    List String → List String → List (String × List String) →
    List (String × List String)
  | [], _, acc => acc
  | _ :: ts, [], acc => insertLoop tt srcs store ts [] acc
  | t :: ts, s :: ss, acc =>
    insertLoop tt srcs store ts ss
      (dictSet acc (tt ++ "." ++ t) [extract_column_source s srcs store])

/-- The CREATE branch loop of `_extract_column_mappings`: for each
projection expression, an alias match maps the alias to the resolved
inner expression, otherwise a derived name maps to the resolved
expression. -/
def createLoop (tt : String) (srcs : List String) (store : Registry) :
    List String → List (String × List String) → List (String × List String)
  | [], acc => acc
  | expr :: rest, acc =>
    createLoop tt srcs store rest
      (match aliasSearch (expr.data.length + 1) [] expr.data with
       | some pr =>
         dictSet acc (tt ++ "." ++ pyStrip (⟨pr.2⟩ : String))
           [extract_column_source (pyStrip (⟨pr.1⟩ : String)) srcs store]
       | none =>
         dictSet acc (tt ++ "." ++ derive_column_name expr)
           [extract_column_source expr srcs store])

/-- `LineageAnalyzer._extract_column_mappings`. -/
def extract_column_mappings (sql : String) (target_table : String)
    (source_tables : List String) (store : Registry) :
    List (String × List String) :=
  if pyContains (pyUpper sql) "INSERT INTO" then
    match searchL matchInsertCols sql.data with
    | some colsText =>
      let target_columns :=
        (splitOnCharL ',' colsText).map (fun c => pyStrip (⟨c⟩ : String))
      match searchL matchSelect sql.data with
      | some srcText =>
        insertLoop target_table source_tables store target_columns
          (splitTopLevel (⟨srcText⟩ : String)) []
      | none => []
    | none => []
  else if pyContains (pyUpper sql) "CREATE" && pyContains (pyUpper sql) "SELECT" then
    match searchL matchSelect sql.data with
    | some selText =>
      createLoop target_table source_tables store
        (splitTopLevel (⟨selText⟩ : String)) []
    | none => []
  else []

/-- `LineageAnalyzer._extract_target_table`: INSERT target, else CREATE
TABLE target, else CREATE VIEW target, else `"Unknown"`. -/
def extract_target_table (sql : String) : String :=
  match searchL matchInsertTable sql.data with
  | some t => pyStrip (⟨t⟩ : String)
  | none =>
    match searchL matchCreateTableTarget sql.data with
    | some t => pyStrip (⟨t⟩ : String)
    | none =>
      match searchL matchCreateViewTarget sql.data with
      | some t => pyStrip (⟨t⟩ : String)
      | none => "Unknown"

/-- `LineageAnalyzer._extract_source_tables`: all `FROM` captures in
order, then all `JOIN` captures. -/
def extract_source_tables (sql : String) : List String :=
  (findAllL (matchKwToken "FROM".data) (sql.data.length + 1) sql.data).map
      (fun t => pyStrip (⟨t⟩ : String))
    ++ (findAllL (matchKwToken "JOIN".data) (sql.data.length + 1) sql.data).map
      (fun t => pyStrip (⟨t⟩ : String))

/-- `LineageAnalyzer.analyze_sql`. -/
def analyze_sql (store : Registry) (sql_text : String) :
    List (String × List String) :=
  let sql := normalize_sql sql_text
  extract_column_mappings sql (extract_target_table sql)
    (extract_source_tables sql) store

/-- A registry in which table `s` has columns `x` and `y` (used to
exercise the metadata lookup of bare column references). -/
def demoStore : Registry :=
  add_column "y" "s" none none none (add_column "x" "s" none none none [])

/-- A registry built by `add_table("t")` then `add_column("c", "t")`. -/
def tinyStore : Registry :=
  add_column "c" "t" none none none (add_table "t" none none [])

/-! # Theorems -/

/-! ### Basic lemmas about the helpers -/

theorem head?_dropWhile (p : Char → Bool) :
    ∀ (l : List Char) (c : Char), (l.dropWhile p).head? = some c → p c = false := by
  intro l
  induction l with
  | nil => intro c h; simp [List.dropWhile] at h
  | cons a rest ih =>
    intro c h
    by_cases hp : p a
    · rw [List.dropWhile_cons_of_pos hp] at h
      exact ih c h
    · rw [List.dropWhile_cons_of_neg hp] at h
      simp at h
      subst h
      exact Bool.eq_false_iff.mpr hp

theorem dropWhile_eq_self (p : Char → Bool) (l : List Char)
    (h : ∀ c, l.head? = some c → p c = false) : l.dropWhile p = l := by
  cases l with
  | nil => simp
  | cons a rest =>
    have := h a (by simp)
    rw [List.dropWhile_cons_of_neg (by simp [this])]

theorem dropWhile_suffix (p : Char → Bool) (l : List Char) :
    ∃ t, t ++ l.dropWhile p = l := by
  induction l with
  | nil => exact ⟨[], rfl⟩
  | cons a rest ih =>
    by_cases hp : p a
    · obtain ⟨t, ht⟩ := ih
      exact ⟨a :: t, by simp [List.dropWhile_cons_of_pos hp, ht]⟩
    · exact ⟨[], by simp [List.dropWhile_cons_of_neg hp]⟩

theorem getLast?_append_of_ne_nil (t : List Char) :
    ∀ (x : List Char), x ≠ [] → (t ++ x).getLast? = x.getLast? := by
  induction t with
  | nil => intro x _; rfl
  | cons a rest ih =>
    intro x hx
    rw [List.cons_append]
    cases hrx : rest ++ x with
    | nil => exact absurd (List.append_eq_nil.mp hrx).2 hx
    | cons b l' =>
      rw [List.getLast?_cons_cons, ← hrx]
      exact ih x hx

theorem getLast?_dropWhile (p : Char → Bool) (l : List Char) (c : Char)
    (h : (l.dropWhile p).getLast? = some c) :
    l.getLast? = some c := by
  obtain ⟨t, ht⟩ := dropWhile_suffix p l
  have hne : l.dropWhile p ≠ [] := by
    intro hcon
    rw [hcon] at h
    simp at h
  rw [← ht, getLast?_append_of_ne_nil t _ hne]
  exact h

/-- The head of a stripped list is not whitespace. -/
theorem stripL_head (l : List Char) (c : Char) (h : (stripL l).head? = some c) :
    pyIsSpace c = false := by
  unfold stripL at h
  rw [List.head?_reverse] at h
  have h2 := getLast?_dropWhile pyIsSpace _ c h
  rw [List.getLast?_reverse] at h2
  exact head?_dropWhile pyIsSpace l c h2

/-- The last character of a stripped list is not whitespace. -/
theorem stripL_getLast (l : List Char) (c : Char) (h : (stripL l).getLast? = some c) :
    pyIsSpace c = false := by
  unfold stripL at h
  rw [List.getLast?_reverse] at h
  exact head?_dropWhile pyIsSpace _ c h

/-- A list whose two ends are not whitespace is fixed by `stripL`. -/
theorem stripL_of_clean (l : List Char)
    (h1 : ∀ c, l.head? = some c → pyIsSpace c = false)
    (h2 : ∀ c, l.getLast? = some c → pyIsSpace c = false) :
    stripL l = l := by
  unfold stripL
  rw [dropWhile_eq_self pyIsSpace l h1]
  rw [dropWhile_eq_self pyIsSpace l.reverse
    (by intro c hc; rw [List.head?_reverse] at hc; exact h2 c hc)]
  exact List.reverse_reverse l

/-- Stripping is idempotent. -/
theorem stripL_idem (l : List Char) : stripL (stripL l) = stripL l :=
  stripL_of_clean _ (stripL_head l) (stripL_getLast l)

theorem pyStrip_idem (s : String) : pyStrip (pyStrip s) = pyStrip s := by
  unfold pyStrip
  exact congrArg String.mk (stripL_idem s.data)

theorem dictGet?_set_self {α : Type} (l : List (String × α)) (k : String) (v : α) :
    dictGet? (dictSet l k v) k = some v := by
  induction l with
  | nil => simp [dictSet, dictGet?]
  | cons hd rest ih =>
    obtain ⟨k', v'⟩ := hd
    by_cases h : k' = k
    · simp [dictSet, dictGet?, h]
    · simp [dictSet, dictGet?, h, ih]

theorem dictGet?_set_ne {α : Type} (l : List (String × α)) (k k' : String) (v : α)
    (h : k ≠ k') : dictGet? (dictSet l k v) k' = dictGet? l k' := by
  induction l with
  | nil => simp [dictSet, dictGet?, h]
  | cons hd rest ih =>
    obtain ⟨k0, v0⟩ := hd
    by_cases h0 : k0 = k
    · subst h0
      simp [dictSet, dictGet?, h]
    · simp [dictSet, dictGet?, h0, ih]

theorem dictSet_not_mem {α : Type} (l : List (String × α)) (k : String) (v : α)
    (h : dictMem l k = false) : dictSet l k v = l ++ [(k, v)] := by
  induction l with
  | nil => simp [dictSet]
  | cons hd rest ih =>
    obtain ⟨k0, v0⟩ := hd
    unfold dictMem dictGet? at h
    by_cases h0 : k0 = k
    · simp [h0] at h
    · simp [h0] at h
      simp [dictSet, h0, ih (by simp [dictMem, h])]

theorem dictMem_of_get {α : Type} (l : List (String × α)) (k : String) (v : α)
    (h : dictGet? l k = some v) : dictMem l k = true := by
  simp [dictMem, h]

theorem dictKeys_set_mem {α : Type} (l : List (String × α)) (k : String) (v : α)
    (h : dictMem l k = true) : dictKeys (dictSet l k v) = dictKeys l := by
  induction l with
  | nil => simp [dictMem, dictGet?] at h
  | cons hd rest ih =>
    obtain ⟨k0, v0⟩ := hd
    by_cases h0 : k0 = k
    · simp [dictSet, dictKeys, h0]
    · unfold dictMem dictGet? at h
      simp [h0] at h
      simp [dictSet, dictKeys, h0] at ih ⊢
      exact ih (by simp [dictMem, h])

theorem dictKeys_modify {α : Type} (l : List (String × α)) (k : String) (f : α → α) :
    dictKeys (dictModify l k f) = dictKeys l := by
  induction l with
  | nil => simp [dictModify]
  | cons hd rest ih =>
    obtain ⟨k0, v0⟩ := hd
    by_cases h0 : k0 = k
    · simp [dictModify, dictKeys, h0]
    · simp [dictModify, dictKeys, h0] at ih ⊢
      exact ih

theorem dictGet?_modify_self {α : Type} (l : List (String × α)) (k : String) (f : α → α)
    (v : α) (h : dictGet? l k = some v) :
    dictGet? (dictModify l k f) k = some (f v) := by
  induction l with
  | nil => simp [dictGet?] at h
  | cons hd rest ih =>
    obtain ⟨k0, v0⟩ := hd
    by_cases h0 : k0 = k
    · unfold dictGet? at h
      simp [h0] at h
      simp [dictModify, dictGet?, h0, h]
    · unfold dictGet? at h
      simp [h0] at h
      simp [dictModify, dictGet?, h0]
      exact ih h

theorem dictGet?_modify_ne {α : Type} (l : List (String × α)) (k k' : String) (f : α → α)
    (h : k ≠ k') : dictGet? (dictModify l k f) k' = dictGet? l k' := by
  induction l with
  | nil => simp [dictModify]
  | cons hd rest ih =>
    obtain ⟨k0, v0⟩ := hd
    by_cases h0 : k0 = k
    · subst h0
      simp [dictModify, dictGet?, h]
    · simp [dictModify, dictGet?, h0, ih]

theorem dictGet?_append_right {α : Type} (l m : List (String × α)) (k : String)
    (h : dictMem l k = false) : dictGet? (l ++ m) k = dictGet? m k := by
  induction l with
  | nil => simp
  | cons hd rest ih =>
    obtain ⟨k0, v0⟩ := hd
    unfold dictMem dictGet? at h
    by_cases h0 : k0 = k
    · simp [h0] at h
    · simp [h0] at h
      simp [dictGet?, h0]
      exact ih (by simp [dictMem, h])

theorem dictGet?_append_left {α : Type} (l m : List (String × α)) (k : String) (v : α)
    (h : dictGet? l k = some v) : dictGet? (l ++ m) k = some v := by
  induction l with
  | nil => simp [dictGet?] at h
  | cons hd rest ih =>
    obtain ⟨k0, v0⟩ := hd
    unfold dictGet? at h ⊢
    by_cases h0 : k0 = k
    · simpa [h0] using h
    · simp [h0] at h ⊢
      exact ih h

/-- In-place modification localized to the final entry of an association
list whose earlier keys differ from the modified one. -/
theorem dictModify_append_last {α : Type} (pre : List (String × α)) (k : String)
    (x : α) (f : α → α) (h : dictMem pre k = false) :
    dictModify (pre ++ [(k, x)]) k f = pre ++ [(k, f x)] := by
  induction pre with
  | nil => simp [dictModify]
  | cons hd rest ih =>
    obtain ⟨k0, v0⟩ := hd
    unfold dictMem dictGet? at h
    by_cases h0 : k0 = k
    · simp [h0] at h
    · simp [h0] at h
      simp [dictModify, h0]
      exact ih (by simp [dictMem, h])

theorem dictMem_append {α : Type} (l m : List (String × α)) (k : String) :
    dictMem (l ++ m) k = (dictMem l k || dictMem m k) := by
  induction l with
  | nil => simp [dictMem, dictGet?]
  | cons hd rest ih =>
    obtain ⟨k0, v0⟩ := hd
    by_cases h0 : k0 = k
    · simp [dictMem, dictGet?, h0]
    · simp [dictMem, dictGet?, h0] at ih ⊢
      exact ih

theorem dictMem_keys {α : Type} (l : List (String × α)) (k : String) :
    dictMem l k = true ↔ k ∈ dictKeys l := by
  induction l with
  | nil => simp [dictMem, dictGet?, dictKeys]
  | cons hd rest ih =>
    obtain ⟨k0, v0⟩ := hd
    by_cases h0 : k0 = k
    · simp [dictMem, dictGet?, dictKeys, h0]
    · simp [dictMem, dictGet?, dictKeys, h0] at ih ⊢
      constructor
      · intro h
        exact Or.inr (ih.mp (by simp [dictMem, h]))
      · intro h
        rcases h with h | h
        · exact absurd h.symm h0
        · have := ih.mpr h
          simpa [dictMem] using this

/-! ### Dictionary consequences used by the store proofs -/

theorem dictGet?_set_eq {α : Type} (l : List (String × α)) (k : String) (v : α)
    (k' : String) :
    dictGet? (dictSet l k v) k' = if k = k' then some v else dictGet? l k' := by
  by_cases h : k = k'
  · subst h
    simp [dictGet?_set_self]
  · simp [h, dictGet?_set_ne l k k' v h]

theorem dictGet?_modify_eq {α : Type} (l : List (String × α)) (k : String)
    (f : α → α) (k' : String) :
    dictGet? (dictModify l k f) k' =
      if k = k' then Option.map f (dictGet? l k') else dictGet? l k' := by
  induction l with
  | nil => simp [dictModify, dictGet?]
  | cons hd rest ih =>
    obtain ⟨k0, v0⟩ := hd
    by_cases h0 : k0 = k
    · subst h0
      by_cases h1 : k0 = k'
      · simp [dictModify, dictGet?, h1]
      · simp [dictModify, dictGet?, h1]
    · by_cases h1 : k0 = k'
      · subst h1
        simp [dictModify, dictGet?, h0, Ne.symm h0]
      · simp [dictModify, dictGet?, h0, h1, ih]

theorem dictMem_false_iff {α : Type} (l : List (String × α)) (k : String) :
    dictMem l k = false ↔ k ∉ dictKeys l := by
  rw [← Bool.not_eq_true, not_iff_not]
  exact dictMem_keys l k

theorem nodup_keys_set {α : Type} (l : List (String × α)) (k : String) (v : α)
    (h : (dictKeys l).Nodup) : (dictKeys (dictSet l k v)).Nodup := by
  by_cases hm : dictMem l k
  · rw [dictKeys_set_mem l k v hm]
    exact h
  · have hk : k ∉ dictKeys l := (dictMem_false_iff l k).mp (Bool.not_eq_true _ ▸ hm)
    rw [dictSet_not_mem l k v (Bool.not_eq_true _ ▸ hm)]
    unfold dictKeys at h hk ⊢
    rw [List.map_append]
    refine List.Nodup.append h (List.nodup_singleton k) ?_
    intro a ha hb
    simp at hb
    subst hb
    exact hk ha

theorem nodup_keys_modify {α : Type} (l : List (String × α)) (k : String)
    (f : α → α) (h : (dictKeys l).Nodup) : (dictKeys (dictModify l k f)).Nodup := by
  rw [dictKeys_modify]
  exact h

theorem nodup_get {α : Type} (l : List (String × α)) (h : (dictKeys l).Nodup)
    (k : String) (v : α) (hm : (k, v) ∈ l) : dictGet? l k = some v := by
  induction l with
  | nil => simp at hm
  | cons hd rest ih =>
    obtain ⟨k0, v0⟩ := hd
    have h' : k0 ∉ dictKeys rest ∧ (dictKeys rest).Nodup := by
      simpa [dictKeys] using h
    rcases List.mem_cons.mp hm with heq | hmem
    · cases heq
      simp [dictGet?]
    · by_cases hk : k0 = k
      · subst hk
        exact absurd (List.mem_map_of_mem Prod.fst hmem) h'.1
      · simp only [dictGet?, hk, if_false]
        exact ih h'.2 hmem

/-! ### Store invariant preservation -/

theorem resolveDb_ne (o : Option String) : resolveDb o ≠ "" := by
  cases o with
  | none => simp [resolveDb]
  | some d =>
    by_cases h : d = "" <;> simp [resolveDb, h]

theorem resolveTableDb_fst_ne (t : String) (db : Option String) :
    (resolveTableDb t db).1 ≠ "" :=
  resolveDb_ne _

theorem resolveTableDb_some (t db : String) (h : db ≠ "") :
    resolveTableDb t (some db) = (db, t) := by
  simp [resolveTableDb, splitIfDotted, optFalsy, h, resolveDb]

theorem add_database_get (name : String) (s : Registry) :
    dictGet? (add_database name s) name = some ((dictGet? s name).getD []) := by
  unfold add_database
  by_cases h : dictMem s name
  · obtain ⟨v, hv⟩ := Option.isSome_iff_exists.mp (by simpa [dictMem] using h)
    simp [h, hv]
  · have hnone : dictGet? s name = none :=
      Option.not_isSome_iff_eq_none.mp (by simpa [dictMem] using h)
    simp [h, dictGet?_set_self, hnone]

theorem Inv_add_database (name : String) (s : Registry) (h : Inv s) :
    Inv (add_database name s) := by
  unfold add_database
  by_cases hm : dictMem s name
  · simpa [hm] using h
  · simp only [hm, Bool.false_eq_true, if_false]
    obtain ⟨hnd, hdb⟩ := h
    refine ⟨nodup_keys_set s name [] hnd, ?_⟩
    intro db tbls hget
    rw [dictGet?_set_eq] at hget
    by_cases hdb' : name = db
    · simp [hdb'] at hget
      subst hget
      exact ⟨List.nodup_nil, fun _ => rfl, fun t cols h => by simp [dictGet?] at h⟩
    · simp [hdb'] at hget
      exact hdb db tbls hget

theorem TableOk_set (cols : ColsDict) (c : String) (bag : Bag)
    (h : TableOk cols) : TableOk (dictSet cols c bag) := by
  obtain ⟨hnd, b, rest, hco⟩ := h
  refine ⟨nodup_keys_set _ _ _ hnd, ?_⟩
  subst hco
  by_cases hc : tpKey = c
  · exact ⟨bag, rest, by simp [dictSet, hc]⟩
  · exact ⟨b, dictSet rest c bag, by simp [dictSet, hc]⟩

theorem TableOk_modify (cols : ColsDict) (c : String) (f : Bag → Bag)
    (h : TableOk cols) : TableOk (dictModify cols c f) := by
  obtain ⟨hnd, b, rest, hco⟩ := h
  refine ⟨nodup_keys_modify _ _ _ hnd, ?_⟩
  subst hco
  by_cases hc : tpKey = c
  · exact ⟨f b, rest, by simp [dictModify, hc]⟩
  · exact ⟨b, dictModify rest c f, by simp [dictModify, hc]⟩

theorem Inv_setColEntry (s : Registry) (db t c : String) (bag : Bag)
    (hdb : db ≠ "") (h : Inv s) : Inv (setColEntry s db t c bag) := by
  obtain ⟨hnd, hall⟩ := h
  unfold setColEntry
  refine ⟨nodup_keys_modify _ _ _ hnd, ?_⟩
  intro db' tbls' hget
  rw [dictGet?_modify_eq] at hget
  by_cases hdb' : db = db'
  · subst hdb'
    simp only [if_pos rfl] at hget
    obtain ⟨tbls, htbls, rfl⟩ := Option.map_eq_some'.mp hget
    obtain ⟨tnd, tempty, tok⟩ := hall db tbls htbls
    refine ⟨nodup_keys_modify _ _ _ tnd, fun he => absurd he hdb, ?_⟩
    intro t' cols' hget'
    rw [dictGet?_modify_eq] at hget'
    by_cases ht' : t = t'
    · subst ht'
      simp only [if_pos rfl] at hget'
      obtain ⟨cols, hcols, rfl⟩ := Option.map_eq_some'.mp hget'
      exact TableOk_set cols c bag (tok t cols hcols)
    · simp only [ht', if_false] at hget'
      exact tok t' cols' hget'
  · simp only [hdb', if_false] at hget
    exact hall db' tbls' hget

theorem Inv_modifyBag (s : Registry) (db t c : String) (f : Bag → Bag)
    (hdb : db ≠ "") (h : Inv s) : Inv (modifyBagEntry s db t c f) := by
  obtain ⟨hnd, hall⟩ := h
  unfold modifyBagEntry
  refine ⟨nodup_keys_modify _ _ _ hnd, ?_⟩
  intro db' tbls' hget
  rw [dictGet?_modify_eq] at hget
  by_cases hdb' : db = db'
  · subst hdb'
    simp only [if_pos rfl] at hget
    obtain ⟨tbls, htbls, rfl⟩ := Option.map_eq_some'.mp hget
    obtain ⟨tnd, tempty, tok⟩ := hall db tbls htbls
    refine ⟨nodup_keys_modify _ _ _ tnd, fun he => absurd he hdb, ?_⟩
    intro t' cols' hget'
    rw [dictGet?_modify_eq] at hget'
    by_cases ht' : t = t'
    · subst ht'
      simp only [if_pos rfl] at hget'
      obtain ⟨cols, hcols, rfl⟩ := Option.map_eq_some'.mp hget'
      exact TableOk_modify cols c f (tok t cols hcols)
    · simp only [ht', if_false] at hget'
      exact tok t' cols' hget'
  · simp only [hdb', if_false] at hget
    exact hall db' tbls' hget

theorem Inv_add_table_base (t : String) (db : Option String) (s : Registry)
    (h : Inv s) : Inv (add_table_base t db s) := by
  unfold add_table_base
  have h1 := Inv_add_database (resolveTableDb t db).1 s h
  by_cases hm : dictMem (tablesOf (add_database (resolveTableDb t db).1 s)
      (resolveTableDb t db).1) (resolveTableDb t db).2
  · simpa [hm] using h1
  · simp only [hm, Bool.false_eq_true, if_false]
    obtain ⟨hnd, hall⟩ := h1
    unfold setTableEntry
    refine ⟨nodup_keys_modify _ _ _ hnd, ?_⟩
    intro db' tbls' hget
    rw [dictGet?_modify_eq] at hget
    by_cases hdb' : (resolveTableDb t db).1 = db'
    · subst hdb'
      simp only [if_pos rfl] at hget
      obtain ⟨tbls, htbls, rfl⟩ := Option.map_eq_some'.mp hget
      obtain ⟨tnd, _, tok⟩ := hall _ tbls htbls
      refine ⟨nodup_keys_set _ _ _ tnd,
        fun he => absurd he (resolveTableDb_fst_ne t db), ?_⟩
      intro t' cols' hget'
      rw [dictGet?_set_eq] at hget'
      by_cases ht' : (resolveTableDb t db).2 = t'
      · simp only [ht', if_pos rfl] at hget'
        cases hget'
        exact ⟨by simp [dictKeys], [], [], rfl⟩
      · simp only [ht', if_false] at hget'
        exact tok t' cols' hget'
    · simp only [hdb', if_false] at hget
      exact hall db' tbls' hget

theorem Inv_set_table_description (t d : String) (db : Option String)
    (s : Registry) (h : Inv s) : Inv (set_table_description t d db s) := by
  unfold set_table_description
  have h1 := Inv_add_table_base (resolveTableDb t db).2
    (some (resolveTableDb t db).1) s h
  apply Inv_modifyBag _ _ _ _ _ (resolveTableDb_fst_ne t db)
  by_cases hm : dictMem ((dictGet? (tablesOf
      (add_table_base (resolveTableDb t db).2 (some (resolveTableDb t db).1) s)
      (resolveTableDb t db).1) (resolveTableDb t db).2).getD []) tpKey
  · simpa [hm] using h1
  · simp only [hm, Bool.false_eq_true, if_false]
    exact Inv_setColEntry _ _ _ _ _ (resolveTableDb_fst_ne t db) h1

theorem Inv_add_table (t : String) (db : Option String) (desc : Option String)
    (s : Registry) (h : Inv s) : Inv (add_table t db desc s) := by
  unfold add_table
  have h1 := Inv_add_table_base t db s h
  cases desc with
  | none => exact h1
  | some d =>
    by_cases hd : d = ""
    · simpa [hd] using h1
    · simpa [hd] using Inv_set_table_description _ d _ _ h1

theorem Inv_add_column (c t : String) (db : Option String) (props : Option Bag)
    (desc : Option String) (s : Registry) (h : Inv s) :
    Inv (add_column c t db props desc s) := by
  unfold add_column
  exact Inv_setColEntry _ _ _ _ _ (resolveDb_ne _)
    (Inv_add_table_base _ _ s h)

theorem Inv_set_column_description (c t d : String) (db : Option String)
    (s : Registry) (h : Inv s) : Inv (set_column_description c t d db s) := by
  unfold set_column_description
  apply Inv_modifyBag _ _ _ _ _ (resolveTableDb_fst_ne t db)
  by_cases hce : column_exists (resolveTableDb t db).2 c
      (some (resolveTableDb t db).1) s
  · simpa [hce] using h
  · simp only [hce, Bool.false_eq_true, if_false]
    exact Inv_add_column _ _ _ _ _ _ h

theorem Inv_import_cols (db t : String) (cols : ColsDict) (s : Registry)
    (h : Inv s) : Inv (import_cols db t cols s) := by
  induction cols generalizing s with
  | nil => exact h
  | cons hd rest ih =>
    obtain ⟨c, props⟩ := hd
    exact ih _ (Inv_add_column _ _ _ _ _ _ h)

theorem Inv_import_tables (db : String) (tbls : TablesDict) (s : Registry)
    (h : Inv s) : Inv (import_tables db tbls s) := by
  induction tbls generalizing s with
  | nil => exact h
  | cons hd rest ih =>
    obtain ⟨t, cols⟩ := hd
    exact ih _ (Inv_import_cols _ _ _ _ (Inv_add_table _ _ _ _ h))

theorem Inv_import_json (data : Registry) (s : Registry) (h : Inv s) :
    Inv (import_json data s) := by
  induction data generalizing s with
  | nil => exact h
  | cons hd rest ih =>
    obtain ⟨db, tbls⟩ := hd
    exact ih _ (Inv_import_tables _ _ _ (Inv_add_database _ _ h))

/-- Every reachable store state satisfies the invariant. -/
theorem reachable_inv (s : Registry) (h : Reachable s) : Inv s := by
  induction h with
  | init => exact ⟨List.nodup_nil, fun db tbls h => by simp [dictGet?] at h⟩
  | addDb name _ ih => exact Inv_add_database _ _ ih
  | addTbl t db desc _ ih => exact Inv_add_table _ _ _ _ ih
  | addCol c t db props desc _ ih => exact Inv_add_column _ _ _ _ _ _ ih
  | setTblDesc t d db _ ih => exact Inv_set_table_description _ _ _ _ ih
  | setColDesc c t d db _ ih => exact Inv_set_column_description _ _ _ _ _ ih
  | impJson data _ ih => exact Inv_import_json _ _ ih

/-! ### The JSON round trip

Importing an exported registry into a fresh store rebuilds it entry by
entry: `add_database`/`add_table` re-create each level in the original
insertion order, and the column loop restores each bag, including the
reserved slot (which `add_table` pre-installed at the front, where the
original table also keeps it). -/

theorem add_database_not_mem (db : String) (s : Registry)
    (h : dictMem s db = false) : add_database db s = s ++ [(db, [])] := by
  unfold add_database
  simp [h, dictSet_not_mem s db [] h]

theorem add_database_mem (db : String) (s : Registry)
    (h : dictMem s db = true) : add_database db s = s := by
  simp [add_database, h]

theorem dictGet?_last {α : Type} (pre : List (String × α)) (k : String) (x : α)
    (h : dictMem pre k = false) : dictGet? (pre ++ [(k, x)]) k = some x := by
  rw [dictGet?_append_right pre [(k, x)] k h]
  simp [dictGet?]

theorem dictMem_last {α : Type} (pre : List (String × α)) (k : String) (x : α) :
    dictMem (pre ++ [(k, x)]) k = true := by
  rw [dictMem_append]
  simp [dictMem, dictGet?]

theorem splitIfDotted_some (t db : String) (h : db ≠ "") :
    splitIfDotted t (some db) = (some db, t) := by
  simp [splitIfDotted, optFalsy, h]

theorem add_table_none_eq (t : String) (db : Option String) (s : Registry) :
    add_table t db none s = add_table_base t db s := rfl

theorem add_table_base_append (t db : String) (pre : Registry) (td : TablesDict)
    (hdb : db ≠ "") (hpre : dictMem pre db = false) (ht : dictMem td t = false) :
    add_table_base t (some db) (pre ++ [(db, td)]) =
      pre ++ [(db, td ++ [(t, [(tpKey, [])])])] := by
  simp only [add_table_base, resolveTableDb_some t db hdb]
  rw [add_database_mem db _ (dictMem_last pre db td)]
  have htd : tablesOf (pre ++ [(db, td)]) db = td := by
    unfold tablesOf
    rw [dictGet?_last pre db td hpre]
    rfl
  rw [htd]
  simp only [ht, Bool.false_eq_true, if_false]
  unfold setTableEntry
  rw [dictModify_append_last pre db td _ hpre]
  rw [dictSet_not_mem td t _ ht]

theorem add_column_existing (c t db : String) (props : Bag) (pre : Registry)
    (td : TablesDict) (cols : ColsDict) (hdb : db ≠ "")
    (hpre : dictMem pre db = false) (ht : dictGet? td t = some cols) :
    add_column c t (some db) (some props) none (pre ++ [(db, td)]) =
      pre ++ [(db, dictModify td t (fun cd => dictSet cd c props))] := by
  have hbase : add_table_base t (some db) (pre ++ [(db, td)]) = pre ++ [(db, td)] := by
    simp only [add_table_base, resolveTableDb_some t db hdb]
    rw [add_database_mem db _ (dictMem_last pre db td)]
    have htd : tablesOf (pre ++ [(db, td)]) db = td := by
      unfold tablesOf
      rw [dictGet?_last pre db td hpre]
      rfl
    rw [htd]
    simp [dictMem, ht]
  have hdbr : resolveDb (some db) = db := by simp [resolveDb, hdb]
  simp only [add_column, splitIfDotted_some t db hdb, hbase, hdbr]
  unfold setColEntry
  rw [dictModify_append_last pre db td _ hpre]
  rfl

theorem import_cols_append (db t : String) (hdb : db ≠ "") (cols : ColsDict) :
    ∀ (pre : Registry) (td : TablesDict) (cd : ColsDict),
      dictMem pre db = false → dictMem td t = false →
      import_cols db t cols (pre ++ [(db, td ++ [(t, cd)])]) =
        pre ++ [(db, td ++
          [(t, List.foldl (fun d kv => dictSet d kv.1 kv.2) cd cols)])] := by
  induction cols with
  | nil =>
    intro pre td cd _ _
    simp [import_cols]
  | cons hd rest ih =>
    intro pre td cd hpre ht
    obtain ⟨c, props⟩ := hd
    rw [import_cols]
    have hget : dictGet? (td ++ [(t, cd)]) t = some cd := dictGet?_last td t cd ht
    rw [add_column_existing c t db props pre (td ++ [(t, cd)]) cd hdb hpre hget]
    rw [dictModify_append_last td t cd _ ht]
    rw [ih pre td (dictSet cd c props) hpre ht]
    rfl

theorem foldl_set_fresh (cols : ColsDict) :
    ∀ (cd : ColsDict),
      (∀ k, k ∈ dictKeys cols → dictMem cd k = false) → (dictKeys cols).Nodup →
      List.foldl (fun d kv => dictSet d kv.1 kv.2) cd cols = cd ++ cols := by
  induction cols with
  | nil => intro cd _ _; simp
  | cons hd rest ih =>
    intro cd hfresh hnd
    obtain ⟨c, p⟩ := hd
    have hc : dictMem cd c = false := hfresh c (List.mem_cons_self _ _)
    have hnd' : c ∉ dictKeys rest ∧ (dictKeys rest).Nodup := by
      simpa [dictKeys] using hnd
    rw [List.foldl_cons]
    simp only []
    rw [dictSet_not_mem cd c p hc]
    rw [ih (cd ++ [(c, p)]) ?_ hnd'.2]
    · rw [List.append_assoc]
      rfl
    · intro k hk
      rw [dictMem_append]
      have hk1 : dictMem cd k = false := hfresh k (List.mem_cons_of_mem _ hk)
      have hk2 : dictMem [(c, p)] k = false := by
        have : k ≠ c := fun he => hnd'.1 (he ▸ hk)
        simp [dictMem, dictGet?]
        exact fun he => absurd he.symm this
      rw [hk1, hk2]
      rfl

theorem foldl_set_table (cols : ColsDict) (h : TableOk cols) :
    List.foldl (fun d kv => dictSet d kv.1 kv.2) [(tpKey, ([] : Bag))] cols = cols := by
  obtain ⟨hnd, b, rest, hco⟩ := h
  subst hco
  rw [List.foldl_cons]
  have h1 : dictSet [(tpKey, ([] : Bag))] tpKey b = [(tpKey, b)] := by
    simp [dictSet]
  simp only [h1]
  have hnd' : tpKey ∉ dictKeys rest ∧ (dictKeys rest).Nodup := by
    simpa [dictKeys] using hnd
  rw [foldl_set_fresh rest [(tpKey, b)] ?_ hnd'.2]
  · rfl
  · intro k hk
    have : k ≠ tpKey := fun he => hnd'.1 (he ▸ hk)
    simp [dictMem, dictGet?]
    exact fun he => absurd he.symm this

theorem import_tables_append (db : String) (hdb : db ≠ "") (tbls : TablesDict) :
    ∀ (pre : Registry) (done : TablesDict),
      dictMem pre db = false →
      (dictKeys (done ++ tbls)).Nodup →
      (∀ p, p ∈ tbls → TableOk p.2) →
      import_tables db tbls (pre ++ [(db, done)]) = pre ++ [(db, done ++ tbls)] := by
  induction tbls with
  | nil =>
    intro pre done _ _ _
    simp [import_tables]
  | cons hd rest ih =>
    intro pre done hpre hnd hok
    obtain ⟨t, cols⟩ := hd
    rw [import_tables]
    have hdone : dictMem done t = false := by
      rw [dictMem_false_iff]
      intro hmem
      unfold dictKeys at hnd
      rw [List.map_append] at hnd
      have := (List.nodup_append.mp hnd).2.2
      exact this hmem (by simp [dictKeys])
    rw [add_table_none_eq, add_table_base_append t db pre done hdb hpre hdone]
    rw [import_cols_append db t hdb cols pre done [(tpKey, [])] hpre hdone]
    rw [foldl_set_table cols (hok (t, cols) (by simp))]
    have hassoc : done ++ [(t, cols)] ++ rest = done ++ (t, cols) :: rest := by
      rw [List.append_assoc]
      rfl
    rw [ih pre (done ++ [(t, cols)]) hpre (by rw [hassoc]; exact hnd)
      (fun p hp => hok p (List.mem_cons_of_mem _ hp))]
    rw [hassoc]

theorem import_json_append (post : Registry) :
    ∀ (pre : Registry),
      (dictKeys (pre ++ post)).Nodup →
      (∀ p, p ∈ post → DbOk p.1 p.2) →
      import_json post pre = pre ++ post := by
  induction post with
  | nil =>
    intro pre _ _
    simp [import_json]
  | cons hd rest ih =>
    intro pre hnd hok
    obtain ⟨db, tbls⟩ := hd
    rw [import_json]
    have hpre : dictMem pre db = false := by
      rw [dictMem_false_iff]
      intro hmem
      unfold dictKeys at hnd
      rw [List.map_append] at hnd
      have := (List.nodup_append.mp hnd).2.2
      exact this hmem (by simp [dictKeys])
    rw [add_database_not_mem db pre hpre]
    obtain ⟨hkeys, hempty, htok⟩ := hok (db, tbls) (by simp)
    have hassoc : pre ++ [(db, tbls)] ++ rest = pre ++ (db, tbls) :: rest := by
      rw [List.append_assoc]
      rfl
    by_cases hdb : db = ""
    · have htnil : tbls = [] := hempty hdb
      subst htnil
      rw [show import_tables db [] (pre ++ [(db, [])]) = pre ++ [(db, [])] from rfl]
      rw [ih (pre ++ [(db, [])]) (by rw [hassoc]; exact hnd)
        (fun p hp => hok p (List.mem_cons_of_mem _ hp))]
      rw [hassoc]
    · have hstep := import_tables_append db hdb tbls pre [] hpre
        (by simpa using hkeys)
        (fun p hp => htok p.1 p.2 (nodup_get tbls hkeys p.1 p.2 hp))
      rw [show pre ++ [(db, [])] = pre ++ [(db, ([] : TablesDict))] from rfl] at hstep ⊢
      rw [hstep]
      rw [show ([] : TablesDict) ++ tbls = tbls from rfl]
      rw [ih (pre ++ [(db, tbls)]) (by rw [hassoc]; exact hnd)
        (fun p hp => hok p (List.mem_cons_of_mem _ hp))]
      rw [hassoc]

/-- Re-importing an exported registry into a fresh store reproduces it. -/
theorem import_export_roundtrip (s : Registry) (h : Inv s) :
    import_json (export_metadata_to_json s) [] = s := by
  obtain ⟨hnd, hall⟩ := h
  have := import_json_append s []
    (by simpa using hnd)
    (fun p hp => hall p.1 p.2 (nodup_get s hnd p.1 p.2 hp))
  simpa [export_metadata_to_json] using this

/-! ### General lemmas about the resolver and the store accessors -/

/-- `tt ++ "." ++ ·` is injective (target keys of distinct target
columns are distinct). -/
theorem targetKey_inj (tt a b : String) (h : tt ++ "." ++ a = tt ++ "." ++ b) :
    a = b := by
  have hd : (tt ++ "." ++ a).data = (tt ++ "." ++ b).data := congrArg String.data h
  have hd' : (tt ++ ".").data ++ a.data = (tt ++ ".").data ++ b.data := hd
  exact congrArg String.mk (List.append_cancel_left hd')

/-- Whenever the projection expression contains an embedded
`identifier.identifier`, the resolver returns that bare qualified
reference (the first regex of `_extract_column_source` fires before the
function handling). -/
theorem extract_column_source_qualified (expr : String) (srcs : List String)
    (store : Registry) (t c : String) (h : findQualified expr = some (t, c)) :
    extract_column_source expr srcs store = t ++ "." ++ c := by
  unfold extract_column_source
  rw [h]

/-- Whenever the expression contains an embedded
`identifier.identifier`, the derived column name is its column part
(the qualified-reference search of `_derive_column_name` takes
precedence over the function-call check). -/
theorem derive_column_name_qualified (expr : String) (t c : String)
    (h : findQualified expr = some (t, c)) : derive_column_name expr = c := by
  unfold derive_column_name
  rw [h]

theorem insertLoop_nil_sources (tt : String) (srcs : List String) (store : Registry) :
    ∀ (ts : List String) (acc : List (String × List String)),
      insertLoop tt srcs store ts [] acc = acc := by
  intro ts
  induction ts with
  | nil => intro acc; rfl
  | cons t ts ih => intro acc; exact ih acc

/-- The INSERT positional loop builds exactly the position-zipped
association list (fresh keys are appended in order). -/
theorem insertLoop_eq_zipWith (tt : String) (srcs : List String) (store : Registry) :
    ∀ (targets sources : List String) (acc : List (String × List String)),
      (∀ t, t ∈ targets → dictMem acc (tt ++ "." ++ t) = false) →
      targets.Nodup →
      insertLoop tt srcs store targets sources acc =
        acc ++ List.zipWith
          (fun t s => (tt ++ "." ++ t, [extract_column_source s srcs store]))
          targets sources := by
  intro targets
  induction targets with
  | nil => intro sources acc _ _; simp [insertLoop]
  | cons t ts ih =>
    intro sources acc hfresh hnd
    cases sources with
    | nil =>
      rw [show insertLoop tt srcs store (t :: ts) [] acc =
        insertLoop tt srcs store ts [] acc from rfl]
      simp [insertLoop_nil_sources tt srcs store ts acc]
    | cons s ss =>
      rw [show insertLoop tt srcs store (t :: ts) (s :: ss) acc =
        insertLoop tt srcs store ts ss
          (dictSet acc (tt ++ "." ++ t) [extract_column_source s srcs store]) from rfl]
      rw [dictSet_not_mem _ _ _ (hfresh t (List.mem_cons_self _ _))]
      rw [ih ss _ ?_ (List.Nodup.of_cons hnd)]
      · rw [List.append_assoc]
        rfl
      · intro t' ht'
        rw [dictMem_append]
        have h1 : dictMem acc (tt ++ "." ++ t') = false :=
          hfresh t' (List.mem_cons_of_mem _ ht')
        have h2 : dictMem [(tt ++ "." ++ t, [extract_column_source s srcs store])]
            (tt ++ "." ++ t') = false := by
          have hne : t ≠ t' := by
            intro he
            exact (List.nodup_cons.mp hnd).1 (he ▸ ht')
          simp [dictMem, dictGet?]
          intro he
          exact absurd (targetKey_inj tt t t' he) hne
        rw [h1, h2]
        rfl

/-- Positional lookup below the length of both lists. -/
theorem zip_lookup_lt (tt : String) (srcs : List String) (store : Registry) :
    ∀ (targets sources : List String) (i : Nat) (hi : i < targets.length)
      (hj : i < sources.length), targets.Nodup →
      dictGet?
        (List.zipWith
          (fun t s => (tt ++ "." ++ t, [extract_column_source s srcs store]))
          targets sources)
        (tt ++ "." ++ targets.get ⟨i, hi⟩) =
        some [extract_column_source (sources.get ⟨i, hj⟩) srcs store] := by
  intro targets
  induction targets with
  | nil => intro sources i hi; simp at hi
  | cons t ts ih =>
    intro sources i hi hj hnd
    cases sources with
    | nil => simp at hj
    | cons s ss =>
      cases i with
      | zero => simp [dictGet?]
      | succ n =>
        have hn : n < ts.length := Nat.lt_of_succ_lt_succ hi
        have hm : n < ss.length := Nat.lt_of_succ_lt_succ hj
        rw [show List.zipWith
            (fun t s => (tt ++ "." ++ t, [extract_column_source s srcs store]))
            (t :: ts) (s :: ss) =
          (tt ++ "." ++ t, [extract_column_source s srcs store]) ::
            List.zipWith
              (fun t s => (tt ++ "." ++ t, [extract_column_source s srcs store]))
              ts ss from rfl]
        rw [show ((t :: ts).get ⟨n + 1, hi⟩ : String) = ts.get ⟨n, hn⟩ from rfl]
        rw [show ((s :: ss).get ⟨n + 1, hj⟩ : String) = ss.get ⟨n, hm⟩ from rfl]
        unfold dictGet?
        have hne : ¬(tt ++ "." ++ t = tt ++ "." ++ ts.get ⟨n, hn⟩) := by
          intro he
          exact (List.nodup_cons.mp hnd).1
            (targetKey_inj tt t _ he ▸ ts.get_mem n hn)
        rw [if_neg hne]
        exact ih ss n hn hm (List.Nodup.of_cons hnd)

/-- Positions past the source list are left unmapped. -/
theorem zip_lookup_ge (tt : String) (srcs : List String) (store : Registry) :
    ∀ (targets sources : List String) (i : Nat) (hi : i < targets.length),
      sources.length ≤ i → targets.Nodup →
      dictGet?
        (List.zipWith
          (fun t s => (tt ++ "." ++ t, [extract_column_source s srcs store]))
          targets sources)
        (tt ++ "." ++ targets.get ⟨i, hi⟩) = none := by
  intro targets
  induction targets with
  | nil => intro sources i hi; simp at hi
  | cons t ts ih =>
    intro sources i hi hlen hnd
    cases sources with
    | nil => simp [dictGet?]
    | cons s ss =>
      cases i with
      | zero => simp at hlen
      | succ n =>
        have hn : n < ts.length := Nat.lt_of_succ_lt_succ hi
        rw [show List.zipWith
            (fun t s => (tt ++ "." ++ t, [extract_column_source s srcs store]))
            (t :: ts) (s :: ss) =
          (tt ++ "." ++ t, [extract_column_source s srcs store]) ::
            List.zipWith
              (fun t s => (tt ++ "." ++ t, [extract_column_source s srcs store]))
              ts ss from rfl]
        rw [show ((t :: ts).get ⟨n + 1, hi⟩ : String) = ts.get ⟨n, hn⟩ from rfl]
        unfold dictGet?
        have hne : ¬(tt ++ "." ++ t = tt ++ "." ++ ts.get ⟨n, hn⟩) := by
          intro he
          exact (List.nodup_cons.mp hnd).1
            (targetKey_inj tt t _ he ▸ ts.get_mem n hn)
        rw [if_neg hne]
        exact ih ss n hn (Nat.le_of_succ_le_succ hlen) (List.Nodup.of_cons hnd)

/-- After `add_table_base`, the resolved database and table entries are
present. -/
theorem add_table_base_present (t : String) (db : Option String) (s : Registry) :
    ∃ tbls cols,
      dictGet? (add_table_base t db s) (resolveTableDb t db).1 = some tbls ∧
        dictGet? tbls (resolveTableDb t db).2 = some cols := by
  simp only [add_table_base]
  have hget := add_database_get (resolveTableDb t db).1 s
  have htab : tablesOf (add_database (resolveTableDb t db).1 s) (resolveTableDb t db).1 =
      (dictGet? s (resolveTableDb t db).1).getD [] := by
    unfold tablesOf
    rw [hget]
    rfl
  by_cases hm : dictMem (tablesOf (add_database (resolveTableDb t db).1 s)
      (resolveTableDb t db).1) (resolveTableDb t db).2
  · simp only [hm, if_true]
    obtain ⟨cols, hcols⟩ := Option.isSome_iff_exists.mp (by simpa [dictMem] using hm)
    refine ⟨_, cols, hget, ?_⟩
    rw [← htab]
    exact hcols
  · simp only [hm, Bool.false_eq_true, if_false]
    unfold setTableEntry
    refine ⟨dictSet ((dictGet? s (resolveTableDb t db).1).getD [])
      (resolveTableDb t db).2 [(tpKey, [])], [(tpKey, [])], ?_, ?_⟩
    · exact dictGet?_modify_self _ _ _ _ hget
    · rw [dictGet?_set_self]

/-- `add_column` stores exactly the supplied property bag (no merge with
an existing bag). -/
theorem add_column_bag (s : Registry) (c t : String) (q : Bag)
    (h : hasDot t = false) :
    bagOf (add_column c t none (some q) none s) "default" t c = some q := by
  have hsplit : splitIfDotted t none = (none, t) := by
    simp [splitIfDotted, h]
  have hres : resolveTableDb t none = ("default", t) := by
    simp [resolveTableDb, hsplit, resolveDb]
  obtain ⟨tbls, cols, htbls, hcols⟩ := add_table_base_present t none s
  rw [hres] at htbls hcols
  dsimp only at htbls hcols
  have hstep : add_column c t none (some q) none s =
      setColEntry (add_table_base t none s) "default" t c q := by
    simp [add_column, hsplit, resolveDb]
  rw [hstep]
  have h1 : dictGet? (setColEntry (add_table_base t none s) "default" t c q) "default" =
      some (dictModify tbls t (fun cols0 => dictSet cols0 c q)) := by
    unfold setColEntry
    exact dictGet?_modify_self _ _ _ _ htbls
  have h2 : dictGet? (dictModify tbls t (fun cols0 => dictSet cols0 c q)) t =
      some (dictSet cols c q) := dictGet?_modify_self _ _ _ _ hcols
  simp only [bagOf, h1, h2, dictGet?_set_self]

/-- In every reachable store, every registered table entry starts with
the reserved properties slot, and its database key is non-empty. -/
theorem reachable_table_shape (s : Registry) (h : Reachable s) (db t : String)
    (tbls : TablesDict) (cols : ColsDict) (h1 : dictGet? s db = some tbls)
    (h2 : dictGet? tbls t = some cols) :
    (∃ b rest, cols = (tpKey, b) :: rest) ∧ db ≠ "" := by
  obtain ⟨_, hall⟩ := reachable_inv s h
  obtain ⟨_, hempty, htok⟩ := hall db tbls h1
  constructor
  · exact (htok t cols h2).2
  · intro he
    rw [hempty he] at h2
    simp [dictGet?] at h2

/-! ### Statement splitter lemmas -/

/-- Every statement the split loop flushes is stripped and non-empty. -/
theorem flush_ok (cur : List Char) (acc : List String)
    (hacc : ∀ s, s ∈ acc → pyStrip s = s ∧ s ≠ "") :
    ∀ s, s ∈ (if (stripL cur).isEmpty then acc
      else acc ++ [(⟨stripL cur⟩ : String)]) → pyStrip s = s ∧ s ≠ "" := by
  intro s hs
  by_cases he : (stripL cur).isEmpty
  · rw [if_pos he] at hs
    exact hacc s hs
  · rw [if_neg he] at hs
    rcases List.mem_append.mp hs with h | h
    · exact hacc s h
    · have hseq : s = (⟨stripL cur⟩ : String) := by simpa using h
      subst hseq
      constructor
      · exact congrArg String.mk (stripL_idem cur)
      · intro hcon
        have hnil : stripL cur = [] := congrArg String.data hcon
        rw [hnil] at he
        exact he rfl

theorem splitScan_ok : ∀ (l : List Char) (inQ : Bool) (qc : Option Char)
    (cur : List Char) (acc : List String),
    (∀ s, s ∈ acc → pyStrip s = s ∧ s ≠ "") →
    ∀ s, s ∈ splitScan l inQ qc cur acc → pyStrip s = s ∧ s ≠ "" := by
  intro l
  induction l with
  | nil =>
    intro inQ qc cur acc hacc s hs
    exact flush_ok cur acc hacc s (by simpa [splitScan] using hs)
  | cons c rest ih =>
    intro inQ qc cur acc hacc s hs
    simp only [splitScan] at hs
    split at hs
    · exact ih _ _ _ _ hacc s hs
    · split at hs
      · exact ih _ _ _ _ (flush_ok cur acc hacc) s hs
      · exact ih _ _ _ _ hacc s hs

/-! ## Claim theorems -/

theorem tinyStoreReachable : Reachable tinyStore :=
  Reachable.addCol "c" "t" none none none
    (Reachable.addTbl "t" none none Reachable.init)

/-- C1 (counterexample): resolving `SUM(o.amount)` yields the bare
`o.amount`, not the function-tagged `o.amount (in SUM)` the claim
demands. -/
theorem c1_counterexample :
    extract_column_source "SUM(o.amount)" [] [] = "o.amount" ∧
    extract_column_source "SUM(o.amount)" [] [] ≠ "o.amount (in SUM)" := by
  decide

/-- C1 (amended): for every projection expression containing an embedded
qualified reference `identifier.identifier` — in particular `func(args)`
forms — the resolver returns the bare qualified column (the
qualified-reference search runs before the function handling, so the
`(in func)` tagging never applies to such expressions); concretely
`SUM(o.amount)` resolves to `o.amount`. -/
theorem c1_function_args_resolve_bare :
    (∀ (expr : String) (srcs : List String) (store : Registry) (t c : String),
      findQualified expr = some (t, c) →
      extract_column_source expr srcs store = t ++ "." ++ c) ∧
    extract_column_source "SUM(o.amount)" [] [] = "o.amount" :=
  ⟨fun expr srcs store t c h =>
    extract_column_source_qualified expr srcs store t c h, by decide⟩

theorem c1_witness :
    extract_column_source "SUM(o.amount)" [] [] = "o" ++ "." ++ "amount" :=
  c1_function_args_resolve_bare.1 "SUM(o.amount)" [] [] "o" "amount" (by decide)

/-- C2 (counterexample): the unaliased projection `SUM(o.amount)`
derives the target name `amount`, not `SUM_result`; end to end,
`CREATE TABLE t2 AS SELECT SUM(o.amount) FROM orders` maps
`t2.amount`. -/
theorem c2_counterexample :
    derive_column_name "SUM(o.amount)" = "amount" ∧
    derive_column_name "SUM(o.amount)" ≠ "SUM_result" ∧
    analyze_sql [] "CREATE TABLE t2 AS SELECT SUM(o.amount) FROM orders" =
      [("t2.amount", ["o.amount"])] := by
  decide

/-- C2 (amended): the qualified-reference search takes precedence even
inside function arguments: an unaliased `func(...)` whose argument text
contains `table.column` derives the name `column`; only a `func(...)`
with no embedded qualified reference derives `func_result`.  Concretely
`SUM(o.amount)` derives `amount` and `COUNT(1)` derives
`COUNT_result`. -/
theorem c2_derived_name_prefers_qualified :
    (∀ (expr t c : String), findQualified expr = some (t, c) →
      derive_column_name expr = c) ∧
    derive_column_name "SUM(o.amount)" = "amount" ∧
    derive_column_name "COUNT(1)" = "COUNT_result" :=
  ⟨fun expr t c h => derive_column_name_qualified expr t c h,
    by decide, by decide⟩

theorem c2_witness : derive_column_name "SUM(o.amount)" = "amount" :=
  c2_derived_name_prefers_qualified.1 "SUM(o.amount)" "o" "amount" (by decide)

/-- C3: the INSERT resolver maps by position `target[i] →
[resolve(source[i])]` for every index below both list lengths, leaves
indices beyond the shorter list unmapped (no error — the loop is total),
and `INSERT INTO t (a,b) SELECT x, y FROM s` produces exactly
`{t.a: [s.x], t.b: [s.y]}` when `s` is registered with columns `x`,
`y`. -/
theorem c3_insert_positional_mapping :
    (∀ (tt : String) (targets sources srcs : List String) (store : Registry),
      targets.Nodup →
        (∀ (i : Nat) (hi : i < targets.length) (hj : i < sources.length),
          dictGet? (insertLoop tt srcs store targets sources [])
              (tt ++ "." ++ targets.get ⟨i, hi⟩) =
            some [extract_column_source (sources.get ⟨i, hj⟩) srcs store]) ∧
        (∀ (i : Nat) (hi : i < targets.length), sources.length ≤ i →
          dictGet? (insertLoop tt srcs store targets sources [])
              (tt ++ "." ++ targets.get ⟨i, hi⟩) = none)) ∧
    analyze_sql demoStore "INSERT INTO t (a,b) SELECT x, y FROM s" =
      [("t.a", ["s.x"]), ("t.b", ["s.y"])] := by
  constructor
  · intro tt targets sources srcs store hnd
    have hzip := insertLoop_eq_zipWith tt srcs store targets sources []
      (by intro t _; simp [dictMem, dictGet?]) hnd
    simp only [List.nil_append] at hzip
    constructor
    · intro i hi hj
      rw [hzip]
      exact zip_lookup_lt tt srcs store targets sources i hi hj hnd
    · intro i hi hle
      rw [hzip]
      exact zip_lookup_ge tt srcs store targets sources i hi hle hnd
  · decide

theorem c3_witness :
    dictGet? (insertLoop "t" ["s"] demoStore ["a", "b"] ["x", "y"] [])
        ("t" ++ "." ++ "a") = some [extract_column_source "x" ["s"] demoStore] :=
  (c3_insert_positional_mapping.1 "t" ["a", "b"] ["x", "y"] ["s"] demoStore
    (by decide)).1 0 (by decide) (by decide)

/-- C4: the statement splitter never splits at a `;` while the quote
state is open (the character is appended to the current statement);
every returned statement is trimmed (fixed by `strip`) and non-empty; a
trailing statement without a terminator is included; `INSERT INTO t
VALUES ('a;b');` yields exactly one statement; empty or whitespace-only
input yields none. -/
theorem c4_statement_splitter :
    (∀ (rest : List Char) (qc : Option Char) (cur : List Char) (acc : List String),
      splitScan (';' :: rest) true qc cur acc =
        splitScan rest true qc (cur ++ [';']) acc) ∧
    (∀ (content s : String), s ∈ extract_sql_statements content →
      pyStrip s = s ∧ s ≠ "") ∧
    extract_sql_statements "INSERT INTO t VALUES ('a;b');" =
      ["INSERT INTO t VALUES ('a;b')"] ∧
    extract_sql_statements "SELECT 1" = ["SELECT 1"] ∧
    extract_sql_statements "" = [] ∧
    extract_sql_statements "   " = [] := by
  refine ⟨fun rest qc cur acc => rfl, ?_, by decide, by decide, by decide, by decide⟩
  intro content s hs
  exact splitScan_ok _ false none [] [] (by intro s' hs'; simp at hs') s hs

theorem c4_witness : pyStrip "SELECT 1" = "SELECT 1" ∧ ("SELECT 1" : String) ≠ "" :=
  c4_statement_splitter.2.1 "SELECT 1" "SELECT 1" (by decide)

/-- C5 (counterexample): after `add_table("t")`; `add_column("c","t")`,
`get_columns("t")` returns `['_table_properties', 'c']`, not `['c']` —
the reserved slot is enumerated. -/
theorem c5_counterexample :
    get_columns "t" none tinyStore = ["_table_properties", "c"] ∧
    get_columns "t" none tinyStore ≠ ["c"] := by
  decide

/-- C5 (amended): `get_columns` returns every key of the table entry
including the reserved `'_table_properties'` slot: concretely the
two-step store enumerates `['_table_properties', 'c']`, and in every
reachable store every registered table enumerates `'_table_properties'`
among its columns. -/
theorem c5_get_columns_includes_reserved :
    get_columns "t" none tinyStore = ["_table_properties", "c"] ∧
    ∀ (s : Registry), Reachable s →
      ∀ (db t : String) (tbls : TablesDict) (cols : ColsDict),
        dictGet? s db = some tbls → dictGet? tbls t = some cols →
        "_table_properties" ∈ get_columns t (some db) s := by
  refine ⟨by decide, ?_⟩
  intro s h db t tbls cols h1 h2
  obtain ⟨⟨b, rest, hco⟩, hdb⟩ := reachable_table_shape s h db t tbls cols h1 h2
  simp only [get_columns, resolveTableDb_some t db hdb, h1, h2]
  subst hco
  simp [dictKeys, tpKey]

theorem c5_witness :
    "_table_properties" ∈ get_columns "t" (some "default") tinyStore :=
  c5_get_columns_includes_reserved.2 tinyStore tinyStoreReachable "default" "t"
    [("t", [(tpKey, []), ("c", [])])] [(tpKey, []), ("c", [])]
    (by decide) (by decide)

/-- C6 (counterexample): re-adding column `c` with bag `{b: 2}` after it
was added with bag `{a: 1}` leaves exactly `{b: 2}`: the key `a` is
discarded, not preserved. -/
theorem c6_counterexample :
    bagOf (add_column "c" "t" none (some [("b", "2")]) none
        (add_column "c" "t" none (some [("a", "1")]) none []))
      "default" "t" "c" = some [("b", "2")] ∧
    dictGet? ([("b", "2")] : Bag) "a" = none := by
  decide

/-- C6 (amended): `add_column` is safe to call repeatedly (it is total
and keeps the table), but the supplied property bag replaces the
column's existing bag: after a second call with bag `Q` and no
description, the stored properties are exactly `Q`; prior keys are
discarded. -/
theorem c6_add_column_replaces_bag :
    (∀ (s : Registry) (c t : String) (q : Bag), hasDot t = false →
      bagOf (add_column c t none (some q) none s) "default" t c = some q) ∧
    bagOf (add_column "c" "t" none (some [("b", "2")]) none
        (add_column "c" "t" none (some [("a", "1")]) none []))
      "default" "t" "c" = some [("b", "2")] :=
  ⟨fun s c t q h => add_column_bag s c t q h, by decide⟩

theorem c6_witness :
    bagOf (add_column "c" "t" none (some [("x", "y")]) none [])
      "default" "t" "c" = some [("x", "y")] :=
  c6_add_column_replaces_bag.1 [] "c" "t" [("x", "y")] (by decide)

/-- C7: for every store state reachable through the public add/import
operations, exporting to JSON and re-importing into a fresh store yields
an equal nested registry. -/
theorem c7_json_roundtrip (s : Registry) (h : Reachable s) :
    import_json (export_metadata_to_json s) [] = s :=
  import_export_roundtrip s (reachable_inv s h)

theorem c7_witness :
    import_json (export_metadata_to_json tinyStore) [] = tinyStore :=
  c7_json_roundtrip tinyStore tinyStoreReachable

/-- C8 (counterexample): `CREATE OR REPLACE VIEW ...` classifies as
`UNKNOWN`, not as the claimed `CREATE VIEW`. -/
theorem c8_counterexample :
    extract_query_type "CREATE OR REPLACE VIEW v AS SELECT 1" = "UNKNOWN" ∧
    extract_query_type "CREATE OR REPLACE VIEW v AS SELECT 1" ≠ "CREATE VIEW" := by
  decide

/-- C8 (amended): query-type classification is a case-insensitive
literal prefix match that does NOT skip the `OR REPLACE` /
`TEMP`/`TEMPORARY` modifiers: statements beginning `CREATE OR REPLACE
VIEW`, `CREATE OR REPLACE TEMP TABLE` and `CREATE OR REPLACE PROCEDURE`
all fall through to `UNKNOWN`; only the unmodified prefixes match. -/
theorem c8_query_type_modifiers_unknown :
    extract_query_type "CREATE OR REPLACE VIEW v AS SELECT 1" = "UNKNOWN" ∧
    extract_query_type "CREATE OR REPLACE TEMP TABLE t AS SELECT 1" = "UNKNOWN" ∧
    extract_query_type "CREATE OR REPLACE PROCEDURE p() BEGIN END" = "UNKNOWN" ∧
    extract_query_type "CREATE VIEW v AS SELECT 1" = "CREATE VIEW" ∧
    extract_query_type "CREATE TABLE t (x INT)" = "CREATE TABLE" ∧
    extract_query_type "CREATE PROCEDURE p()" = "CREATE PROCEDURE" := by
  decide

/-- C9 (counterexample): `IN price DECIMAL(10,2)` is split at the comma
inside the parenthesized type — the parameter list split is a plain
`split(',')` with no depth tracking — producing two parameters, not
one. -/
theorem c9_counterexample :
    extract_stored_procedure_params "CREATE PROCEDURE p(IN price DECIMAL(10,2))" =
      (["IN price DECIMAL(10", "2"], []) ∧
    (extract_stored_procedure_params
      "CREATE PROCEDURE p(IN price DECIMAL(10,2))").1.length = 2 := by
  decide

/-- C9 (amended): the parameter list is split on plain commas (no
parenthesis-depth tracking), so `IN price DECIMAL(10,2)` becomes the two
parameters `IN price DECIMAL(10` and `2`; an `INOUT` parameter is
appended to both lists; a parameter with no direction keyword defaults
to the input list. -/
theorem c9_proc_params_plain_split :
    extract_stored_procedure_params "CREATE PROCEDURE p(IN price DECIMAL(10,2))" =
      (["IN price DECIMAL(10", "2"], []) ∧
    extract_stored_procedure_params "CREATE PROCEDURE p(INOUT x INT)" =
      (["INOUT x INT"], ["INOUT x INT"]) ∧
    extract_stored_procedure_params "CREATE PROCEDURE p(x FLOAT, OUT y INT)" =
      (["x FLOAT"], ["OUT y INT"]) := by
  decide

/-- C10: in every reachable store state, every registered table entry
contains the reserved `'_table_properties'` key, and
`column_exists(table, '_table_properties')` returns `True` for it. -/
theorem c10_reserved_slot_invariant (s : Registry) (h : Reachable s)
    (db t : String) (tbls : TablesDict) (cols : ColsDict)
    (h1 : dictGet? s db = some tbls) (h2 : dictGet? tbls t = some cols) :
    dictMem cols "_table_properties" = true ∧
      column_exists t "_table_properties" (some db) s = true := by
  obtain ⟨⟨b, rest, hco⟩, hdb⟩ := reachable_table_shape s h db t tbls cols h1 h2
  subst hco
  refine ⟨by simp [dictMem, dictGet?, tpKey], ?_⟩
  simp only [column_exists, resolveTableDb_some t db hdb, h1, h2]
  simp [dictMem, dictGet?, tpKey]

theorem c10_witness :
    dictMem [(tpKey, ([] : Bag)), ("c", [])] "_table_properties" = true ∧
      column_exists "t" "_table_properties" (some "default") tinyStore = true :=
  c10_reserved_slot_invariant tinyStore tinyStoreReachable "default" "t"
    [("t", [(tpKey, []), ("c", [])])] [(tpKey, []), ("c", [])]
    (by decide) (by decide)

end Lineage
